import Mathlib

/-!
# Verification of the jolo-viz overlay rendering and A/V synchronization engine

Shallow embedding of `frontend/src/components/VideoWithOverlay.tsx`
(the overlay rendering core): frame-index resolution, identity colors,
audio level lookup and sampling, category classification, chart scaling,
and trail construction.  JavaScript numbers are modelled as exact
rationals (`ℚ`); JavaScript sparse records keyed by numbers are modelled
as functions `ℤ → Option _`; JavaScript arrays as `List`.
-/

namespace JoloViz

/-! ## Data model (from `frontend/src/types.ts`) -/

/-- `FrameResult` of `types.ts`: parallel arrays of detections for one
analysis frame, plus an optional saliency grid. -/
structure FrameResult where
  boxes : List (ℚ × ℚ × ℚ × ℚ)
  track_ids : List (Option ℤ)
  classes : List ℤ
  scores : List ℚ
  names : List String
  saliency : Option (List (List ℚ)) := none
deriving Repr, DecidableEq

/-- `TrackResult` of `types.ts`: analysis rate, frame count, a sparse map
from frame index to `FrameResult`, and optional pre-scanned audio levels. -/
structure TrackResult where
  fps : ℚ
  frame_count : ℕ
  frames : ℤ → Option FrameResult
  audio_levels : Option (List ℚ) := none

/-! ## Constants (from `VideoWithOverlay.tsx`) -/

def TRAIL_LEN : ℕ := 20

def GRAPH_WINDOW_SEC : ℚ := 2

def AUDIO_HISTORY_MAX_SEC : ℚ := 4

/-! ## Identity color assigner (`trackIdToHue`, VideoWithOverlay.tsx:615-618) -/

/-- Truncated (toward-zero) integer part, as used by the JavaScript `%`
operator's quotient. -/
def jsTrunc (q : ℚ) : ℤ := if 0 ≤ q then ⌊q⌋ else -⌊-q⌋

/-- The JavaScript remainder operator `a % b` on numbers: the remainder of
truncated division, with the sign of the dividend. -/
def jsMod (a b : ℚ) : ℚ := a - b * jsTrunc (a / b)

/-- `trackIdToHue`: `id == null → 0`, else `(id * 137.508) % 360`. -/
def trackIdToHue : Option ℤ → ℚ
  | none => 0
  | some id => jsMod ((id : ℚ) * (137508 / 1000)) 360

theorem jsTrunc_of_nonneg {q : ℚ} (h : 0 ≤ q) : jsTrunc q = ⌊q⌋ := by
  simp [jsTrunc, h]

/-- For a nonnegative dividend and positive divisor, the JS remainder agrees
with the floored remainder `a - b * ⌊a / b⌋`. -/
theorem jsMod_of_nonneg {a b : ℚ} (ha : 0 ≤ a) (hb : 0 < b) :
    jsMod a b = a - b * ⌊a / b⌋ := by
  have : (0 : ℚ) ≤ a / b := div_nonneg ha hb.le
  simp [jsMod, jsTrunc_of_nonneg this]

/-- C8: for every present nonnegative integer track id,
`hue(id) = (id * 137.508) mod 360` (floored remainder); repeated calls with
the same id return the identical hue; an absent id yields the fixed neutral
hue `0`; and in particular `hue(7) = 242.556` exactly. -/
theorem trackIdToHue_spec (id : ℤ) (hid : 0 ≤ id) :
    trackIdToHue (some id) =
        (id : ℚ) * (137508 / 1000) - 360 * ⌊(id : ℚ) * (137508 / 1000) / 360⌋ ∧
      trackIdToHue (some id) = trackIdToHue (some id) ∧
      trackIdToHue none = 0 ∧
      trackIdToHue (some 7) = 242556 / 1000 := by
  constructor
  · have ha : (0 : ℚ) ≤ (id : ℚ) * (137508 / 1000) := by positivity
    rw [trackIdToHue, jsMod_of_nonneg ha (by norm_num)]
  · exact ⟨rfl, rfl, by norm_num [trackIdToHue, jsMod, jsTrunc]⟩

/-- Witness for `trackIdToHue_spec` at `id = 7`. -/
theorem trackIdToHue_spec_witness :
    trackIdToHue (some 7) = 242556 / 1000 :=
  (trackIdToHue_spec 7 (by norm_num)).2.2.2

/-! ## Frame index resolver (`drawOverlay`, VideoWithOverlay.tsx:1045-1047) -/

/-- `syncTime = Math.max(0, video.currentTime - overlayDelaySec)`. -/
def syncTimeOf (tRaw delay : ℚ) : ℚ := max 0 (tRaw - delay)

/-- `frameIndex = Math.floor(syncTime * fps)`. -/
def frameIndexOf (syncTime fps : ℚ) : ℤ := ⌊syncTime * fps⌋

/-- `trackResult.frames[frameIndex]`: the resolved frame record, if present. -/
def resolveFrame (res : TrackResult) (tRaw delay : ℚ) : Option FrameResult :=
  res.frames (frameIndexOf (syncTimeOf tRaw delay) res.fps)

/-- C1: the overlay tick computes `t_sync = max(0, t_raw - delay)` and frame
index `⌊t_sync * fps⌋`; and for every `fps > 0` and every `i` in
`[0, frame_count)`, resolving time `t = i / fps` with delay `0` yields frame
index `i`. -/
theorem frame_resolution_correct (fps : ℚ) (hfps : 0 < fps)
    (frameCount : ℕ) (i : ℕ) (_hi : i < frameCount) :
    (∀ tRaw delay : ℚ,
        frameIndexOf (syncTimeOf tRaw delay) fps = ⌊max 0 (tRaw - delay) * fps⌋) ∧
      frameIndexOf (syncTimeOf ((i : ℚ) / fps) 0) fps = i := by
  refine ⟨fun tRaw delay => rfl, ?_⟩
  have h0 : (0 : ℚ) ≤ (i : ℚ) / fps := by positivity
  rw [frameIndexOf, syncTimeOf, sub_zero, max_eq_right h0,
    div_mul_cancel₀ _ (ne_of_gt hfps)]
  exact Int.floor_natCast i

/-- Witness for `frame_resolution_correct` at `fps = 30`, `i = 60`,
`frame_count = 300`. -/
theorem frame_resolution_correct_witness :
    frameIndexOf (syncTimeOf ((60 : ℚ) / 30) 0) 30 = 60 :=
  (frame_resolution_correct 30 (by norm_num) 300 60 (by norm_num)).2

/-! ## Precomputed audio lookup (`drawCountGraph`, VideoWithOverlay.tsx:814-821) -/

/-- The audio level plotted at window time `t` in precomputed mode
(`audio_levels` present):
`t > syncTime → 0`, else `audio_levels[Math.max(0, Math.min(⌊t * fps⌋, len - 1))] ?? 0`. -/
def precompAudioLevel (levels : List ℚ) (fps syncTime t : ℚ) : ℚ :=
  if syncTime < t then 0
  else
    let idx : ℤ := min ⌊t * fps⌋ ((levels.length : ℤ) - 1)
    levels.getD (max 0 idx).toNat 0

/-- C3: in precomputed mode the level plotted at window time `t` is
`audio_levels[clamp(⌊t * fps⌋, 0, len - 1)]`, except that every `t` strictly
past the sync time is plotted as `0`; in particular with 300 levels and
`fps = 30`, the lookup at `t = 2` returns `audio_levels[60]`. -/
theorem precomp_audio_lookup (levels : List ℚ) (fps syncTime t : ℚ)
    (hne : levels ≠ []) :
    (syncTime < t → precompAudioLevel levels fps syncTime t = 0) ∧
      (t ≤ syncTime →
        precompAudioLevel levels fps syncTime t =
          levels.getD (min (max 0 ⌊t * fps⌋) ((levels.length : ℤ) - 1)).toNat 0) ∧
      (∀ ls : List ℚ, ls.length = 300 → ∀ st : ℚ, (2 : ℚ) ≤ st →
        precompAudioLevel ls 30 st 2 = ls.getD 60 0) := by
  refine ⟨fun h => by simp [precompAudioLevel, h], fun h => ?_, fun ls hlen st hst => ?_⟩
  · have hL : (0 : ℤ) ≤ (levels.length : ℤ) - 1 := by
      have : 1 ≤ levels.length := List.length_pos.mpr hne
      omega
    rw [precompAudioLevel, if_neg (not_lt.mpr h)]
    have : max 0 (min ⌊t * fps⌋ ((levels.length : ℤ) - 1)) =
        min (max 0 ⌊t * fps⌋) ((levels.length : ℤ) - 1) := by
      rw [max_min_distrib_left, max_eq_right hL]
    simp only [this]
  · have hfloor : ⌊(2 : ℚ) * 30⌋ = 60 := by norm_num
    rw [precompAudioLevel, if_neg (not_lt.mpr hst)]
    simp [hfloor, hlen]

/-- Witness for `precomp_audio_lookup` on a concrete one-sample list. -/
theorem precomp_audio_lookup_witness :
    precompAudioLevel [1 / 2] 30 5 6 = 0 :=
  (precomp_audio_lookup [1 / 2] 30 5 6 (by simp)).1 (by norm_num)

/-! ## Live audio history lookup (`getAudioLevelAt`, VideoWithOverlay.tsx:684-698) -/

/-- The interpolation step of `getAudioLevelAt` at scan position `i`:
`a = samples[i-1]`, `b = samples[i]`,
`frac = (t - a.time) / (b.time - a.time || 1)`,
result `a.level + frac * (b.level - a.level)`. -/
def lerpAt (l : List (ℚ × ℚ)) (t : ℚ) (i : ℕ) : ℚ :=
  (l.getD (i - 1) (0, 0)).2 +
    ((t - (l.getD (i - 1) (0, 0)).1) /
        (if (l.getD i (0, 0)).1 - (l.getD (i - 1) (0, 0)).1 = 0 then 1
          else (l.getD i (0, 0)).1 - (l.getD (i - 1) (0, 0)).1)) *
      ((l.getD i (0, 0)).2 - (l.getD (i - 1) (0, 0)).2)

/-- `getAudioLevelAt(audioSamples, t)`: `0` on an empty history, the single
sample's level on a one-sample history, and otherwise a scan for the first
sample whose time is `≥ t` followed by endpoint selection or interpolation. -/
def getAudioLevelAt (l : List (ℚ × ℚ)) (t : ℚ) : ℚ :=
  if l.length = 0 then 0
  else if l.length = 1 then (l.getD 0 (0, 0)).2
  else if l.findIdx (fun s => decide (t ≤ s.1)) = 0 then (l.getD 0 (0, 0)).2
  else if l.length ≤ l.findIdx (fun s => decide (t ≤ s.1)) then
    (l.getD (l.length - 1) (0, 0)).2
  else lerpAt l t (l.findIdx (fun s => decide (t ≤ s.1)))

theorem getD_length_sub_one {α : Type} (l : List α) (d : α) (h : l ≠ []) :
    l.getD (l.length - 1) d = l.getLastD d := by
  have hlt : l.length - 1 < l.length := by
    have := List.length_pos.mpr h; omega
  rw [List.getD_eq_getElem l d hlt, List.getLastD_eq_getLast?,
    List.getLast?_eq_getLast l h, Option.getD_some, List.getLast_eq_getElem]

theorem getLastD_cons_of_ne_nil {α : Type} (a d : α) {l : List α} (h : l ≠ []) :
    (a :: l).getLastD d = l.getLastD d := by
  rcases List.exists_cons_of_ne_nil h with ⟨b, L, rfl⟩
  rw [List.getLastD_eq_getLast?, List.getLastD_eq_getLast?, List.getLast?_cons_cons]

theorem fst_le_getLastD {l : List (ℚ × ℚ)}
    (hs : l.Pairwise (fun a b => a.1 ≤ b.1)) :
    ∀ x ∈ l, x.1 ≤ (l.getLastD (0, 0)).1 := by
  induction l with
  | nil => simp
  | cons a l ih =>
    rw [List.pairwise_cons] at hs
    intro x hx
    rcases List.mem_cons.mp hx with rfl | hx'
    · by_cases hl : l = []
      · subst hl; simp [List.getLastD]
      · have hmem := List.getLast_mem hl
        have h1 : x.1 ≤ (l.getLast hl).1 := hs.1 _ hmem
        rw [getLastD_cons_of_ne_nil _ _ hl, List.getLastD_eq_getLast?,
          List.getLast?_eq_getLast l hl, Option.getD_some]
        exact h1
    · have hl : l ≠ [] := List.ne_nil_of_mem hx'
      rw [getLastD_cons_of_ne_nil _ _ hl]
      exact ih hs.2 x hx'

/-- C6: on a time-sorted history, `getAudioLevelAt` returns `0` for an empty
history, the first sample's level when `t` is at or before the first time,
the last sample's level when `t` is after the last time, and otherwise the
linear interpolation between the two samples bracketing `t`. -/
theorem getAudioLevelAt_spec (l : List (ℚ × ℚ)) (t : ℚ)
    (hs : l.Pairwise (fun a b => a.1 ≤ b.1)) :
    (l = [] → getAudioLevelAt l t = 0) ∧
      (l ≠ [] → t ≤ (l.getD 0 (0, 0)).1 →
        getAudioLevelAt l t = (l.getD 0 (0, 0)).2) ∧
      (l ≠ [] → (l.getLastD (0, 0)).1 < t →
        getAudioLevelAt l t = (l.getLastD (0, 0)).2) ∧
      ((l.getD 0 (0, 0)).1 < t → t ≤ (l.getLastD (0, 0)).1 →
        ∃ j, j + 1 < l.length ∧ (l.getD j (0, 0)).1 < t ∧
          t ≤ (l.getD (j + 1) (0, 0)).1 ∧
          getAudioLevelAt l t =
            (l.getD j (0, 0)).2 +
              ((t - (l.getD j (0, 0)).1) /
                  ((l.getD (j + 1) (0, 0)).1 - (l.getD j (0, 0)).1)) *
                ((l.getD (j + 1) (0, 0)).2 - (l.getD j (0, 0)).2)) := by
  refine ⟨fun h => by subst h; rfl, ?_, ?_, ?_⟩
  · -- t at or before the first sample's time
    intro hne hle
    rcases List.exists_cons_of_ne_nil hne with ⟨s0, rest, rfl⟩
    have hfi : (s0 :: rest).findIdx (fun s => decide (t ≤ s.1)) = 0 := by
      rw [List.findIdx_cons]
      simp only [List.getD_cons_zero] at hle
      simp [hle]
    by_cases h1 : (s0 :: rest).length = 1
    · simp [getAudioLevelAt, h1]
    · simp [getAudioLevelAt, h1, hfi]
  · -- t after the last sample's time
    intro hne hlt
    have hfalse : ∀ x ∈ l, (fun s : ℚ × ℚ => decide (t ≤ s.1)) x = false := by
      intro x hx
      simp only [decide_eq_false_iff_not, not_le]
      exact lt_of_le_of_lt (fst_le_getLastD hs x hx) hlt
    have hfi : l.findIdx (fun s => decide (t ≤ s.1)) = l.length :=
      List.findIdx_eq_length.mpr hfalse
    have h0 : l.length ≠ 0 := fun h => hne (List.length_eq_zero.mp h)
    by_cases h1 : l.length = 1
    · rcases List.length_eq_one.mp h1 with ⟨a, rfl⟩
      simp [getAudioLevelAt, List.getLastD]
    · have hfi0 : l.findIdx (fun s => decide (t ≤ s.1)) ≠ 0 := by
        rw [hfi]; exact h0
      rw [getAudioLevelAt, if_neg h0, if_neg h1, if_neg hfi0, if_pos (le_of_eq hfi.symm),
        getD_length_sub_one l _ hne]
  · -- interpolation between the bracketing samples
    intro hhead hlast
    have hne : l ≠ [] := by
      intro h; subst h
      simp only [List.getD_nil, List.getLastD_nil] at hhead hlast
      exact absurd hlast (not_le.mpr hhead)
    have hlen0 : 0 < l.length := List.length_pos.mpr hne
    have hp0 : l.findIdx (fun s => decide (t ≤ s.1)) ≠ 0 := by
      rcases List.exists_cons_of_ne_nil hne with ⟨s0, rest, hl⟩
      subst hl
      simp only [List.getD_cons_zero] at hhead
      rw [List.findIdx_cons]
      simp [not_le.mpr hhead]
    have hplast : ∃ x ∈ l, (fun s : ℚ × ℚ => decide (t ≤ s.1)) x = true := by
      refine ⟨l.getLast hne, List.getLast_mem hne, ?_⟩
      simp only [decide_eq_true_eq]
      rw [List.getLastD_eq_getLast?, List.getLast?_eq_getLast l hne, Option.getD_some] at hlast
      exact hlast
    have hilt : l.findIdx (fun s => decide (t ≤ s.1)) < l.length :=
      List.findIdx_lt_length_of_exists hplast
    have h2 : 2 ≤ l.length := by
      rcases Nat.lt_or_ge l.length 2 with h | h
      · exfalso
        have h1 : l.length = 1 := by omega
        rcases List.length_eq_one.mp h1 with ⟨a, rfl⟩
        simp only [List.getD_cons_zero, List.getLastD] at hhead hlast
        exact absurd hlast (not_le.mpr hhead)
      · exact h
    set i := l.findIdx (fun s => decide (t ≤ s.1)) with hidef
    have hi1 : 1 ≤ i := Nat.one_le_iff_ne_zero.mpr hp0
    have ha_lt : (l.getD (i - 1) (0, 0)).1 < t := by
      have hlt' : i - 1 < l.length := by omega
      have := List.not_of_lt_findIdx
        (Nat.lt_of_lt_of_le (show i - 1 < i by omega) (le_of_eq hidef))
      rw [List.getD_eq_getElem l _ hlt']
      simpa only [decide_eq_false_iff_not, not_le] using this
    have hb_ge : t ≤ (l.getD i (0, 0)).1 := by
      have hget : (fun s : ℚ × ℚ => decide (t ≤ s.1)) l[i] = true :=
        @List.findIdx_getElem _ (fun s : ℚ × ℚ => decide (t ≤ s.1)) l hilt
      rw [List.getD_eq_getElem l _ hilt]
      simpa only [decide_eq_true_eq] using hget
    have hdenom : (l.getD i (0, 0)).1 - (l.getD (i - 1) (0, 0)).1 ≠ 0 :=
      sub_ne_zero.mpr (ne_of_gt (lt_of_lt_of_le ha_lt hb_ge))
    have hres : getAudioLevelAt l t = lerpAt l t i := by
      rw [getAudioLevelAt, if_neg (by omega : ¬ l.length = 0),
        if_neg (by omega : ¬ l.length = 1), if_neg hp0, if_neg (by omega : ¬ l.length ≤ i)]
    refine ⟨i - 1, by omega, ha_lt, ?_, ?_⟩
    · rw [show i - 1 + 1 = i by omega]; exact hb_ge
    · rw [show i - 1 + 1 = i by omega, hres, lerpAt, if_neg hdenom]

/-- Witness for `getAudioLevelAt_spec` on a concrete two-sample history at a
query time before the first sample. -/
theorem getAudioLevelAt_spec_witness :
    getAudioLevelAt [(0, 0), (1, 1)] (-1) =
      (([(0, 0), (1, 1)] : List (ℚ × ℚ)).getD 0 (0, 0)).2 :=
  (getAudioLevelAt_spec [(0, 0), (1, 1)] (-1) (by norm_num)).2.1 (by simp)
    (by norm_num)

/-! ## Category classifier (VideoWithOverlay.tsx:576-607, 726-734)

The chart's categories are one per COCO class name plus a catch-all
`"Other"` (`buildGraphCategories`).  The class-name list
`COCO_CLASS_NAMES` is imported from `../types` and its defining module is
not part of the sources; the development is therefore parameterized by the
name list, assuming only what its use presumes (distinct lowercase names).
-/

/-- Shallow embedding of JavaScript `String.prototype.toLowerCase`:
per-character case mapping. -/
def jsToLower (s : String) : String := ⟨s.data.map Char.toLower⟩

/-- A chart category: a label and the set of matched class names.  The
stroke/fill colors computed alongside in the source are presentation-only
and carry no classification behavior. -/
structure GraphCategory where
  label : String
  classNames : List String
deriving Repr, DecidableEq

/-- `buildGraphCategories`: one singleton category per class name, then the
catch-all `"Other"` with an empty name set. -/
def buildGraphCategories (cocoNames : List String) : List GraphCategory :=
  cocoNames.map (fun n => { label := n, classNames := [n] }) ++
    [{ label := "Other", classNames := [] }]

/-- One `m.set(key, value)` step of the JavaScript `Map` used for
`CLASS_NAME_TO_INDEX`: later writes overwrite earlier ones. -/
def mapSet (m : String → Option ℕ) (k : String) (v : ℕ) : String → Option ℕ :=
  fun s => if s = k then some v else m s

/-- The nested loop building `CLASS_NAME_TO_INDEX`: for each category index
`c` in order, insert `n.toLowerCase() ↦ c` for every `n` in its name set. -/
def classNameToIndexAux : ℕ → List GraphCategory → (String → Option ℕ) → (String → Option ℕ)
  | _, [], m => m
  | c, cat :: rest, m =>
      classNameToIndexAux (c + 1) rest
        (cat.classNames.foldl (fun m' n => mapSet m' (jsToLower n) c) m)

def classNameToIndex (cats : List GraphCategory) : String → Option ℕ :=
  classNameToIndexAux 0 cats (fun _ => none)

/-- `OTHER_INDEX = GRAPH_CATEGORIES.length - 1`. -/
def OTHER_INDEX (cats : List GraphCategory) : ℕ := cats.length - 1

/-- The chart's per-detection classification
(`CLASS_NAME_TO_INDEX.get(name.toLowerCase()) ?? OTHER_INDEX`). -/
def classifyIdx (cats : List GraphCategory) (name : String) : ℕ :=
  (classNameToIndex cats (jsToLower name)).getD (OTHER_INDEX cats)

/-- Per-frame category counts: start from all zeros and increment the
classified index for each detection name, as the loop at
VideoWithOverlay.tsx:726-734 does. -/
def frameCounts (cats : List GraphCategory) (fr : FrameResult) : List ℕ :=
  fr.names.foldl
    (fun counts n =>
      counts.set (classifyIdx cats n) (counts.getD (classifyIdx cats n) 0 + 1))
    (cats.map fun _ => 0)

/-- The classification the spec describes: the index of the first category
whose (case-insensitive) class-name set contains the detection's lowercased
name, else the catch-all index. -/
def firstMatchIdx (cats : List GraphCategory) (name : String) : ℕ :=
  let i := cats.findIdx (fun c => (c.classNames.map jsToLower).contains (jsToLower name))
  if i < cats.length then i else cats.length - 1

theorem findIdx_map {α β : Type} (f : α → β) (l : List α) (p : β → Bool) :
    (l.map f).findIdx p = l.findIdx (fun a => p (f a)) := by
  induction l with
  | nil => rfl
  | cons a l ih => simp [List.findIdx_cons, ih]

theorem classNameToIndexAux_build (names : List String) :
    ∀ (c : ℕ) (m0 : String → Option ℕ) (k : String),
      (names.map jsToLower).Nodup →
      classNameToIndexAux c (buildGraphCategories names) m0 k =
        if k ∈ names.map jsToLower then
          some (c + (names.map jsToLower).findIdx (fun s => s == k))
        else m0 k := by
  induction names with
  | nil =>
    intro c m0 k _
    simp [buildGraphCategories, classNameToIndexAux]
  | cons n ns ih =>
    intro c m0 k hnd
    simp only [List.map_cons, List.nodup_cons] at hnd
    have step : classNameToIndexAux c (buildGraphCategories (n :: ns)) m0 =
        classNameToIndexAux (c + 1) (buildGraphCategories ns) (mapSet m0 (jsToLower n) c) := by
      simp [buildGraphCategories, classNameToIndexAux, List.foldl]
    rw [step, ih (c + 1) _ k hnd.2]
    by_cases hk : k = (jsToLower n)
    · have hnot : ¬ k ∈ ns.map jsToLower := hk ▸ hnd.1
      rw [if_neg hnot, if_pos (by simp [hk])]
      simp [mapSet, hk, List.findIdx_cons]
    · by_cases hmem : k ∈ ns.map jsToLower
      · rw [if_pos hmem, if_pos (by simp [hmem])]
        have hbeq : ((jsToLower n) == k) = false := by
          simp only [beq_eq_false_iff_ne, ne_eq]
          exact fun h => hk h.symm
        simp only [List.map_cons]
        rw [List.findIdx_cons, hbeq]
        simp only [cond_false]
        congr 1
        omega
      · rw [if_neg hmem, if_neg (by simp [hmem, hk])]
        simp [mapSet, hk]

theorem buildGraphCategories_length (names : List String) :
    (buildGraphCategories names).length = names.length + 1 := by
  simp [buildGraphCategories]

theorem singleton_contains_pred (k : String) :
    (fun a : String =>
        ((({ label := a, classNames := [a] } : GraphCategory)).classNames.map
            jsToLower).contains k) =
      fun n : String => (jsToLower n) == k := by
  funext n
  simp only [List.map_cons, List.map_nil]
  show List.elem k [(jsToLower n)] = ((jsToLower n) == k)
  rw [Bool.eq_iff_iff]
  simp only [List.elem_iff, List.mem_singleton, beq_iff_eq]
  exact eq_comm

theorem findIdx_buildGraphCategories (names : List String) (k : String) :
    (buildGraphCategories names).findIdx
        (fun c => (c.classNames.map jsToLower).contains k) =
      if names.findIdx (fun n => (jsToLower n) == k) < names.length then
        names.findIdx (fun n => (jsToLower n) == k)
      else names.length + 1 := by
  rw [buildGraphCategories, List.findIdx_append, findIdx_map]
  simp only [singleton_contains_pred k, List.length_map]
  have hother : List.findIdx
      (fun c : GraphCategory => (c.classNames.map jsToLower).contains k)
      [{ label := "Other", classNames := [] }] = 1 := by
    rw [List.findIdx_cons]
    show (bif List.elem k [] then 0 else List.findIdx _ [] + 1) = 1
    simp
  rw [hother]
  by_cases h : names.findIdx (fun n => (jsToLower n) == k) < names.length
  · simp [h]
  · simp only [if_neg h]
    omega

theorem classifyIdx_eq_firstMatchIdx (cocoNames : List String)
    (hnd : (cocoNames.map jsToLower).Nodup) (name : String) :
    classifyIdx (buildGraphCategories cocoNames) name =
      firstMatchIdx (buildGraphCategories cocoNames) name := by
  have hLfi : (cocoNames.map jsToLower).findIdx (fun s => s == (jsToLower name)) =
      cocoNames.findIdx (fun n => (jsToLower n) == (jsToLower name)) :=
    findIdx_map _ _ _
  rw [classifyIdx, classNameToIndex, firstMatchIdx,
    classNameToIndexAux_build cocoNames 0 _ (jsToLower name) hnd,
    findIdx_buildGraphCategories, buildGraphCategories_length, OTHER_INDEX,
    buildGraphCategories_length]
  by_cases hmem : (jsToLower name) ∈ cocoNames.map jsToLower
  · have hjlt : cocoNames.findIdx (fun n => (jsToLower n) == (jsToLower name)) <
        cocoNames.length := by
      have : (cocoNames.map jsToLower).findIdx (fun s => s == (jsToLower name)) <
          (cocoNames.map jsToLower).length :=
        List.findIdx_lt_length_of_exists ⟨(jsToLower name), hmem, by simp⟩
      rwa [hLfi, List.length_map] at this
    rw [if_pos hmem, if_pos hjlt, if_pos (by omega), Option.getD_some, hLfi,
      Nat.zero_add]
  · have hjeq : cocoNames.findIdx (fun n => (jsToLower n) == (jsToLower name)) =
        cocoNames.length := by
      apply List.findIdx_eq_length.mpr
      intro n hn
      simp only [beq_eq_false_iff_ne, ne_eq]
      intro heq
      exact hmem (heq ▸ List.mem_map_of_mem jsToLower hn)
    rw [if_neg hmem, hjeq, if_neg (lt_irrefl _), if_neg (by omega), Option.getD_none]

theorem sum_set_getD_succ : ∀ (l : List ℕ) (i : ℕ), i < l.length →
    (l.set i (l.getD i 0 + 1)).sum = l.sum + 1 := by
  intro l
  induction l with
  | nil => intro i h; simp at h
  | cons a l ih =>
    intro i h
    cases i with
    | zero => simp [List.getD_cons_zero]; omega
    | succ n =>
      simp only [List.getD_cons_succ, List.set_cons_succ, List.sum_cons]
      rw [ih n (by simpa using h)]
      omega

theorem firstMatchIdx_lt (cats : List GraphCategory) (h : cats ≠ []) (name : String) :
    firstMatchIdx cats name < cats.length := by
  have : 0 < cats.length := List.length_pos.mpr h
  rw [firstMatchIdx]
  split <;> omega

theorem foldl_counts_sum (cats : List GraphCategory)
    (hlt : ∀ n : String, classifyIdx cats n < cats.length) (names : List String) :
    ∀ counts : List ℕ, counts.length = cats.length →
      (names.foldl
        (fun counts n =>
          counts.set (classifyIdx cats n) (counts.getD (classifyIdx cats n) 0 + 1))
        counts).sum = counts.sum + names.length := by
  induction names with
  | nil => intro counts _; simp
  | cons n ns ih =>
    intro counts hlen
    rw [List.foldl_cons, ih _ (by rw [List.length_set]; exact hlen),
      sum_set_getD_succ counts _ (by rw [hlen]; exact hlt n)]
    simp [List.length_cons]
    omega

/-- Modelled from the spec: the constant `COCO_CLASS_NAMES` imported from
`../types` is not among the sources; the spec fixes only that the chart's
configuration is "an ordered list of categories, each with a label and a set
of matched class names" plus a catch-all.  The development is therefore
parameterized by the class-name list; this predicate names the property its
use presumes: pairwise-distinct lowercased class names (true of the COCO
class list). -/
def validClassNames (cocoNames : List String) : Prop :=
  (cocoNames.map jsToLower).Nodup

instance (cocoNames : List String) : Decidable (validClassNames cocoNames) :=
  inferInstanceAs (Decidable ((cocoNames.map jsToLower).Nodup))

/-- C4: for every frame record whose parallel arrays share one length, the
chart's classification agrees with first-match classification (the first
category whose class-name set contains the lowercased detection name, else
the catch-all), and the per-category counts (catch-all included) sum to the
frame's detection count.  Parameterized by the class-name list, assuming the
distinct lowercase names its use presumes. -/
theorem classifier_total_first_match (cocoNames : List String)
    (hnd : validClassNames cocoNames)
    (fr : FrameResult) (hpar : fr.names.length = fr.boxes.length) :
    (∀ name, classifyIdx (buildGraphCategories cocoNames) name =
        firstMatchIdx (buildGraphCategories cocoNames) name) ∧
      (frameCounts (buildGraphCategories cocoNames) fr).sum = fr.boxes.length := by
  refine ⟨classifyIdx_eq_firstMatchIdx cocoNames hnd, ?_⟩
  have hne : buildGraphCategories cocoNames ≠ [] := by
    have := buildGraphCategories_length cocoNames
    intro h
    rw [h] at this
    simp at this
  have hlt : ∀ n : String, classifyIdx (buildGraphCategories cocoNames) n <
      (buildGraphCategories cocoNames).length := fun n => by
    rw [classifyIdx_eq_firstMatchIdx cocoNames hnd]
    exact firstMatchIdx_lt _ hne n
  rw [← hpar, frameCounts, foldl_counts_sum _ hlt fr.names _ (by simp)]
  have hz : ((buildGraphCategories cocoNames).map fun _ => 0).sum = 0 :=
    List.sum_eq_zero (fun x hx => by
      rcases List.mem_map.mp hx with ⟨_, _, rfl⟩
      rfl)
  rw [hz, Nat.zero_add]

/-- Concrete frame record used by the classifier witness. -/
def frW : FrameResult :=
  { boxes := [(0, 0, 1, 1), (0, 0, 2, 2)]
    track_ids := [none, none]
    classes := [0, 0]
    scores := [1, 1]
    names := ["a", "c"] }

/-- Witness for `classifier_total_first_match` on a two-name configuration. -/
theorem classifier_total_first_match_witness :
    (∀ name, classifyIdx (buildGraphCategories ["a", "b"]) name =
        firstMatchIdx (buildGraphCategories ["a", "b"]) name) ∧
      (frameCounts (buildGraphCategories ["a", "b"]) frW).sum = frW.boxes.length :=
  classifier_total_first_match ["a", "b"] (by decide) frW (by decide)

/-! ## Chart vertical scaling (`drawCountGraph`, VideoWithOverlay.tsx:736-741, 760) -/

/-- The default category used by positional lookups (never hit in range). -/
def emptyCat : GraphCategory := { label := "", classNames := [] }

/-- The values entering the axis-scale computation:
`GRAPH_CATEGORIES.flatMap((_, c) => graphCategoryVisible[label] ? categoryCounts[c] : [])`.
`visible` is the JS truthiness of the `graphCategoryVisible` record lookup. -/
def visibleCounts (visible : String → Bool) (cats : List GraphCategory)
    (categoryCounts : List (List ℕ)) : List ℕ :=
  (List.range cats.length).flatMap (fun c =>
    if visible ((cats.getD c emptyCat).label) then categoryCounts.getD c [] else [])

/-- `maxCount = Math.max(1, ...visible window counts)`. -/
def maxCount (visible : String → Bool) (cats : List GraphCategory)
    (categoryCounts : List (List ℕ)) : ℕ :=
  (visibleCounts visible cats categoryCounts).foldl max 1

/-- `toY = (c) => y1 - (c / maxCount) * chartH`. -/
def toY (y1 chartH : ℚ) (maxC : ℕ) (c : ℕ) : ℚ :=
  y1 - ((c : ℚ) / (maxC : ℚ)) * chartH

/-- The per-category series as rendered: `none` for a category whose label is
not toggled visible (both fill and stroke loops `continue` over it), and the
window counts mapped through `toY` against the computed `maxCount` otherwise. -/
def renderedSeries (visible : String → Bool) (cats : List GraphCategory)
    (categoryCounts : List (List ℕ)) (y1 chartH : ℚ) : List (Option (List ℚ)) :=
  (List.range cats.length).map (fun c =>
    if visible ((cats.getD c emptyCat).label) then
      some ((categoryCounts.getD c []).map
        (fun k => toY y1 chartH (maxCount visible cats categoryCounts) k))
    else none)

theorem le_foldl_max (l : List ℕ) (b : ℕ) : b ≤ l.foldl max b := by
  induction l generalizing b with
  | nil => simp
  | cons a l ih => exact le_trans (le_max_left b a) (ih (max b a))

theorem flatMap_congr_left {α β : Type} (l : List α) (f g : α → List β)
    (h : ∀ a ∈ l, f a = g a) : l.flatMap f = l.flatMap g := by
  induction l with
  | nil => rfl
  | cons a l ih =>
    simp only [List.flatMap_cons]
    rw [h a (List.mem_cons_self a l), ih (fun x hx => h x (List.mem_cons_of_mem a hx))]

/-- C10: whatever the window counts and the visibility configuration — all
counts zero and every category hidden included — the axis-scale denominator
`maxCount` is at least `1`, hence nonzero, and `toY` is the well-defined
linear map `c ↦ y1 - c * chartH / maxCount`. -/
theorem maxCount_ge_one (visible : String → Bool) (cats : List GraphCategory)
    (categoryCounts : List (List ℕ)) :
    1 ≤ maxCount visible cats categoryCounts ∧
      ((maxCount visible cats categoryCounts : ℚ) ≠ 0) ∧
      (∀ y1 chartH : ℚ, ∀ k : ℕ,
        toY y1 chartH (maxCount visible cats categoryCounts) k =
          y1 - (k : ℚ) * chartH / (maxCount visible cats categoryCounts : ℚ)) := by
  have h1 : 1 ≤ maxCount visible cats categoryCounts := le_foldl_max _ 1
  refine ⟨h1, Nat.cast_ne_zero.mpr (by omega), fun y1 chartH k => ?_⟩
  rw [toY, div_mul_eq_mul_div]

/-- C5: the axis-scale `maxCount` is computed only over the counts of
categories whose label is toggled visible: replacing the counts of every
hidden category changes neither `maxCount` nor any rendered series, hidden
categories render as `none`, and each visible category still renders its
counts scaled through `toY` against that `maxCount`. -/
theorem maxCount_ignores_hidden (visible : String → Bool) (cats : List GraphCategory)
    (cc1 cc2 : List (List ℕ)) (y1 chartH : ℚ)
    (hagree : ∀ c, c < cats.length →
      visible ((cats.getD c emptyCat).label) = true → cc1.getD c [] = cc2.getD c []) :
    maxCount visible cats cc1 = maxCount visible cats cc2 ∧
      renderedSeries visible cats cc1 y1 chartH =
        renderedSeries visible cats cc2 y1 chartH ∧
      (∀ c, c < cats.length → visible ((cats.getD c emptyCat).label) = false →
        (renderedSeries visible cats cc1 y1 chartH).getD c none = none) ∧
      (∀ c, c < cats.length → visible ((cats.getD c emptyCat).label) = true →
        (renderedSeries visible cats cc1 y1 chartH).getD c none =
          some ((cc1.getD c []).map
            (fun k => toY y1 chartH (maxCount visible cats cc1) k))) := by
  have hvc : visibleCounts visible cats cc1 = visibleCounts visible cats cc2 := by
    rw [visibleCounts, visibleCounts]
    apply flatMap_congr_left
    intro c hc
    have hclt : c < cats.length := List.mem_range.mp hc
    by_cases hv : visible ((cats.getD c emptyCat).label)
    · rw [if_pos hv, if_pos hv, hagree c hclt hv]
    · rw [if_neg hv, if_neg hv]
  have hmax : maxCount visible cats cc1 = maxCount visible cats cc2 := by
    rw [maxCount, maxCount, hvc]
  have hgetD : ∀ (cc : List (List ℕ)) (c : ℕ), c < cats.length →
      (renderedSeries visible cats cc y1 chartH).getD c none =
        (if visible ((cats.getD c emptyCat).label) then
          some ((cc.getD c []).map
            (fun k => toY y1 chartH (maxCount visible cats cc) k))
        else none) := by
    intro cc c hclt
    rw [renderedSeries, List.getD_eq_getElem _ _ (by simpa using hclt),
      List.getElem_map, List.getElem_range]
  refine ⟨hmax, ?_, ?_, ?_⟩
  · rw [renderedSeries, renderedSeries]
    apply List.map_congr_left
    intro c hc
    have hclt := List.mem_range.mp hc
    by_cases hv : visible ((cats.getD c emptyCat).label)
    · rw [if_pos hv, if_pos hv, hagree c hclt hv, hmax]
    · rw [if_neg hv, if_neg hv]
  · intro c hclt hv
    rw [hgetD cc1 c hclt]
    simp only [List.getD_eq_getElem?_getD] at hv ⊢
    simp [hv]
  · intro c hclt hv
    rw [hgetD cc1 c hclt]
    simp only [List.getD_eq_getElem?_getD] at hv ⊢
    simp [hv]

/-- Concrete categories used by the hidden-series witness. -/
def catsW : List GraphCategory :=
  [{ label := "A", classNames := ["a"] }, { label := "B", classNames := [] }]

/-- Witness for `maxCount_ignores_hidden`: category `"B"` is hidden, and its
counts differ between the two inputs. -/
theorem maxCount_ignores_hidden_witness :
    maxCount (fun l => l == "A") catsW [[1], [5]] =
        maxCount (fun l => l == "A") catsW [[1], [7]] ∧
      renderedSeries (fun l => l == "A") catsW [[1], [5]] 0 1 =
        renderedSeries (fun l => l == "A") catsW [[1], [7]] 0 1 ∧
      (∀ c, c < catsW.length → ((catsW.getD c emptyCat).label == "A") = false →
        (renderedSeries (fun l => l == "A") catsW [[1], [5]] 0 1).getD c none = none) ∧
      (∀ c, c < catsW.length → ((catsW.getD c emptyCat).label == "A") = true →
        (renderedSeries (fun l => l == "A") catsW [[1], [5]] 0 1).getD c none =
          some (List.map
            (fun k => toY 0 1 (maxCount (fun l => l == "A") catsW [[1], [5]]) k)
            (([[1], [5]] : List (List ℕ)).getD c []))) :=
  maxCount_ignores_hidden (fun l => l == "A") catsW [[1], [5]] [[1], [7]] 0 1
    (by decide)

/-! ## Trails (`drawOverlay`, VideoWithOverlay.tsx:1078-1107)

The loop runs `for (f = Math.max(0, frameIndex - TRAIL_LEN); f <= frameIndex; f++)`,
an inclusive range of up to `TRAIL_LEN + 1 = 21` frames.
-/

/-- The inclusive integer range `[s, e]`, in order. -/
def frameRange (s e : ℤ) : List ℤ :=
  (List.range (e - s + 1).toNat).map (fun k : ℕ => s + (k : ℤ))

/-- The box-center points one frame contributes to track `tid`'s trail:
detections without a track id are skipped, matching ones contribute their
scaled box center. -/
def perFrameTrailPoints (fr : FrameResult) (tid : ℤ) (scaleX scaleY : ℚ) :
    List (ℚ × ℚ) :=
  (List.range fr.boxes.length).filterMap (fun i =>
    match fr.track_ids.getD i none with
    | none => none
    | some t =>
      if t = tid then
        some ((((fr.boxes.getD i (0, 0, 0, 0)).1 + (fr.boxes.getD i (0, 0, 0, 0)).2.2.1) / 2) * scaleX,
          (((fr.boxes.getD i (0, 0, 0, 0)).2.1 + (fr.boxes.getD i (0, 0, 0, 0)).2.2.2) / 2) * scaleY)
      else none)

/-- The entry of `trailByTrack` for `tid`: all points collected for that id
over the frames `max(0, frameIndex - TRAIL_LEN) … frameIndex` inclusive,
absent frames contributing nothing. -/
def trailPoints (res : TrackResult) (frameIndex : ℤ) (scaleX scaleY : ℚ)
    (tid : ℤ) : List (ℚ × ℚ) :=
  (frameRange (max 0 (frameIndex - (TRAIL_LEN : ℤ))) frameIndex).flatMap (fun f =>
    match res.frames f with
    | none => []
    | some fr => perFrameTrailPoints fr tid scaleX scaleY)

/-- Whether track `tid`'s trail is drawn as a polyline
(`if (points.length < 2) return` skips it). -/
def trailDrawn (res : TrackResult) (frameIndex : ℤ) (scaleX scaleY : ℚ)
    (tid : ℤ) : Bool :=
  decide (2 ≤ (trailPoints res frameIndex scaleX scaleY tid).length)

/-- One detection of track `1`, used by the trail counterexample. -/
def frOne : FrameResult :=
  { boxes := [(0, 0, 2, 2)]
    track_ids := [some 1]
    classes := [0]
    scores := [1]
    names := ["a"] }

/-- A track result whose frames `0 … 20` each contain one detection of
track `1`. -/
def exRes : TrackResult :=
  { fps := 30
    frame_count := 30
    frames := fun i => if 0 ≤ i ∧ i ≤ 20 then some frOne else none }

/-- C2 counterexample: at frame index `20`, track `1`'s trail holds `21`
points — the scan covers the 21 frames `0 … 20` inclusive, not 20, and the
per-track point count can exceed 20. -/
theorem trail_exceeds_twenty :
    (trailPoints exRes 20 1 1 1).length = 21 := by decide

theorem sum_map_le_length {α : Type} (l : List α) (g : α → ℕ)
    (h : ∀ a ∈ l, g a ≤ 1) : (l.map g).sum ≤ l.length := by
  induction l with
  | nil => simp
  | cons a l ih =>
    simp only [List.map_cons, List.sum_cons, List.length_cons]
    have := h a (List.mem_cons_self a l)
    have := ih (fun x hx => h x (List.mem_cons_of_mem a hx))
    omega

/-- C2 amended: the trail scan covers the frames
`max(0, frameIndex - 20) … frameIndex` inclusive — up to `21` frames — so
when every frame holds at most one detection per track id, a track's point
sequence has length at most `TRAIL_LEN + 1 = 21`; detections without a track
id never contribute; and a track with fewer than 2 points in the window is
never drawn. -/
theorem trail_props (res : TrackResult) (frameIndex : ℤ) (tid : ℤ) (sX sY : ℚ)
    (hone : ∀ f : ℤ, ∀ fr : FrameResult, res.frames f = some fr →
      (perFrameTrailPoints fr tid sX sY).length ≤ 1) :
    (trailPoints res frameIndex sX sY tid).length ≤ TRAIL_LEN + 1 ∧
      ((∀ f : ℤ, ∀ fr : FrameResult, res.frames f = some fr →
          ∀ x ∈ fr.track_ids, x = none) →
        trailPoints res frameIndex sX sY tid = []) ∧
      ((trailPoints res frameIndex sX sY tid).length < 2 →
        trailDrawn res frameIndex sX sY tid = false) := by
  have hrange : (frameRange (max 0 (frameIndex - (TRAIL_LEN : ℤ))) frameIndex).length ≤
      TRAIL_LEN + 1 := by
    simp only [frameRange, List.length_map, List.length_range, TRAIL_LEN]
    omega
  refine ⟨?_, ?_, ?_⟩
  · rw [trailPoints, List.length_flatMap]
    refine le_trans (sum_map_le_length _ _ ?_) hrange
    intro f _
    simp only [Function.comp_apply]
    cases hf : res.frames f with
    | none => simp
    | some fr => exact hone f fr hf
  · intro hnone
    rw [trailPoints]
    have : ∀ f ∈ frameRange (max 0 (frameIndex - (TRAIL_LEN : ℤ))) frameIndex,
        (match res.frames f with
          | none => ([] : List (ℚ × ℚ))
          | some fr => perFrameTrailPoints fr tid sX sY) = [] := by
      intro f _
      cases hf : res.frames f with
      | none => rfl
      | some fr =>
        unfold perFrameTrailPoints
        apply List.filterMap_eq_nil_iff.mpr
        intro i _
        have : fr.track_ids.getD i none = none := by
          rcases Nat.lt_or_ge i fr.track_ids.length with hlt | hge
          · rw [List.getD_eq_getElem _ _ hlt]
            exact hnone f fr hf _ (List.getElem_mem hlt)
          · rw [List.getD_eq_getElem?_getD, List.getElem?_eq_none hge]
            rfl
        rw [this]
    rw [flatMap_congr_left _ _ _ this]
    simp
  · intro hlen
    rw [trailDrawn, decide_eq_false_iff_not]
    omega

/-- Witness for `trail_props` on the concrete single-track result. -/
theorem trail_props_witness :
    (trailPoints exRes 19 1 1 1).length ≤ TRAIL_LEN + 1 ∧
      ((∀ f : ℤ, ∀ fr : FrameResult, exRes.frames f = some fr →
          ∀ x ∈ fr.track_ids, x = none) →
        trailPoints exRes 19 1 1 1 = []) ∧
      ((trailPoints exRes 19 1 1 1).length < 2 →
        trailDrawn exRes 19 1 1 1 = false) :=
  trail_props exRes 19 1 1 1 (by
    intro f fr hf
    by_cases h : 0 ≤ f ∧ f ≤ 20
    · have : some frOne = some fr := by
        rw [← hf]; simp [exRes, h]
      have hfr : fr = frOne := by injection this with h'; exact h'.symm
      subst hfr
      decide
    · exfalso
      have : exRes.frames f = none := by simp [exRes, h]
      rw [this] at hf
      exact Option.noConfusion hf)

/-! ## Audio sampling and display boost
(`sampleAudioLevel` VideoWithOverlay.tsx:1017-1030, `toYAudio` 762-768,
history push 1050-1058)

`sampleAudioLevel` computes `min(1, sqrt(meanSq) / 128)` where `meanSq` is
the mean squared deviation of the analyser's byte samples from the center
`128`.  The square root is the one non-rational operation; it is
characterized here by its defining properties (`0 ≤ rms` and
`rms² · 128² = meanSq`) rather than evaluated.
-/

/-- The mean squared deviation from center `128` of the analyser bytes:
`sum += (data[i] - 128)²` over the loop, divided by `data.length`. -/
def audioMeanSq (data : List ℕ) : ℚ :=
  ((data.map (fun v : ℕ => ((v : ℚ) - 128) ^ 2)).sum) / (data.length : ℚ)

/-- `sampleAudioLevel`'s final clamp `Math.min(1, rms)`, applied to the
(nonnegative) root-mean-square value. -/
def sampleAudioLevel (rms : ℚ) : ℚ := min 1 rms

def AUDIO_LEVEL_BOOST : ℚ := 5

/-- The display boost inside `toYAudio`: `min(1, level * AUDIO_LEVEL_BOOST)`. -/
def boostedLevel (level : ℚ) : ℚ := min 1 (level * AUDIO_LEVEL_BOOST)

/-- `toYAudio = (level) => audioBaselineY - Math.max(0, boosted) * audioRangeH`. -/
def toYAudio (audioBaselineY audioRangeH level : ℚ) : ℚ :=
  audioBaselineY - max 0 (boostedLevel level) * audioRangeH

/-- The per-tick history update: push `(currentTime, level)` and drop
leading samples older than `currentTime - AUDIO_HISTORY_MAX_SEC`. -/
def pushAudioSample (history : List (ℚ × ℚ)) (currentTime level : ℚ) :
    List (ℚ × ℚ) :=
  (history ++ [(currentTime, level)]).dropWhile
    (fun s => decide (s.1 < currentTime - AUDIO_HISTORY_MAX_SEC))

theorem dropWhile_append_singleton {α : Type} (p : α → Bool) (l : List α) (x : α)
    (hx : p x = false) : (l ++ [x]).dropWhile p = l.dropWhile p ++ [x] := by
  induction l with
  | nil => simp [List.dropWhile_cons, hx]
  | cons a l ih =>
    by_cases h : p a
    · simp only [List.cons_append, List.dropWhile_cons, h, if_true, ih]
    · simp [List.dropWhile_cons, h]

/-- C7: the stored audio level `min(1, rms)` lies in `[0, 1]` (the rms is
even already at most `1` for byte input); for every nonnegative level the
boosted display value `min(1, level · 5)` lies in `[0, 1]` and is exactly
what `toYAudio` plots; and the history stores the unboosted level. -/
theorem audio_level_boost_clamped (data : List ℕ) (rms : ℚ)
    (hrms0 : 0 ≤ rms) (hrms : rms ^ 2 * 128 ^ 2 = audioMeanSq data)
    (hbytes : ∀ v ∈ data, v ≤ 255) (hne : data ≠ [])
    (history : List (ℚ × ℚ)) (t : ℚ) :
    (0 ≤ sampleAudioLevel rms ∧ sampleAudioLevel rms ≤ 1 ∧ rms ≤ 1) ∧
      (∀ level : ℚ, 0 ≤ level →
        0 ≤ boostedLevel level ∧ boostedLevel level ≤ 1 ∧
          ∀ b r : ℚ, toYAudio b r level = b - max 0 (min 1 (level * 5)) * r) ∧
      (pushAudioSample history t (sampleAudioLevel rms)).getLastD (0, 0) =
        (t, sampleAudioLevel rms) := by
  refine ⟨⟨le_min (by norm_num) hrms0, min_le_left _ _, ?_⟩, ?_, ?_⟩
  · -- rms ≤ 1 from meanSq ≤ 128²
    have hlen : 0 < data.length := List.length_pos.mpr hne
    have hterm : ∀ x ∈ data.map (fun v : ℕ => ((v : ℚ) - 128) ^ 2), x ≤ 128 ^ 2 := by
      intro x hx
      rcases List.mem_map.mp hx with ⟨v, hv, rfl⟩
      have h255 : (v : ℚ) ≤ 255 := by exact_mod_cast hbytes v hv
      have h0 : (0 : ℚ) ≤ (v : ℚ) := by positivity
      have := sq_le_sq' (by linarith : -(128 : ℚ) ≤ (v : ℚ) - 128)
        (by linarith : (v : ℚ) - 128 ≤ 128)
      simpa [sq] using this
    have hsum : (data.map (fun v : ℕ => ((v : ℚ) - 128) ^ 2)).sum ≤
        (data.length : ℚ) * 128 ^ 2 := by
      have := List.sum_le_card_nsmul (data.map (fun v : ℕ => ((v : ℚ) - 128) ^ 2))
        (128 ^ 2) hterm
      simpa [nsmul_eq_mul] using this
    have hmean : audioMeanSq data ≤ 128 ^ 2 := by
      rw [audioMeanSq, div_le_iff₀ (by exact_mod_cast hlen)]
      linarith [hsum]
    have hsq : rms ^ 2 ≤ 1 := by
      have h128 : (0 : ℚ) < 128 ^ 2 := by norm_num
      nlinarith [hrms, hmean]
    nlinarith [hsq, hrms0]
  · intro level hlevel
    have hb0 : (0 : ℚ) ≤ level * AUDIO_LEVEL_BOOST := by
      rw [AUDIO_LEVEL_BOOST]; nlinarith
    refine ⟨le_min (by norm_num) hb0, min_le_left _ _, fun b r => ?_⟩
    rw [toYAudio, boostedLevel, AUDIO_LEVEL_BOOST]
  · rw [pushAudioSample, dropWhile_append_singleton _ _ _
      (by simp only [decide_eq_false_iff_not, not_lt, AUDIO_HISTORY_MAX_SEC]; linarith),
      List.getLastD_concat]

/-- Witness for `audio_level_boost_clamped` at silence (`data = [128, 128]`,
`rms = 0`). -/
theorem audio_level_boost_clamped_witness :
    (0 ≤ sampleAudioLevel 0 ∧ sampleAudioLevel 0 ≤ 1 ∧ (0 : ℚ) ≤ 1) ∧
      (∀ level : ℚ, 0 ≤ level →
        0 ≤ boostedLevel level ∧ boostedLevel level ≤ 1 ∧
          ∀ b r : ℚ, toYAudio b r level = b - max 0 (min 1 (level * 5)) * r) ∧
      (pushAudioSample [] 0 (sampleAudioLevel 0)).getLastD (0, 0) =
        (0, sampleAudioLevel 0) :=
  audio_level_boost_clamped [128, 128] 0 le_rfl
    (by norm_num [audioMeanSq]) (by decide) (by decide) [] 0

/-! ## Chart window and orchestration
(`drawCountGraph` VideoWithOverlay.tsx:712-735, `drawOverlay` 1032-1146) -/

/-- The frame indices the chart window iterates:
`frameMin = ⌊tMin · fps⌋ … frameMax = ⌈tMax · fps⌉`, the loop breaking at the
first index whose time `fi / fps` exceeds `tMax`. -/
def chartFrameIdxs (fps syncTime : ℚ) : List ℤ :=
  (frameRange ⌊max 0 (syncTime - GRAPH_WINDOW_SEC) * fps⌋
      ⌈(syncTime + GRAPH_WINDOW_SEC) * fps⌉).takeWhile
    (fun fi => decide ((fi : ℚ) / fps ≤ syncTime + GRAPH_WINDOW_SEC))

/-- The chart's per-frame counts: all zeros for an absent frame, classifier
counts for a present one. -/
def frameCountsAt (cats : List GraphCategory) (res : TrackResult) (fi : ℤ) :
    List ℕ :=
  match res.frames fi with
  | none => cats.map fun _ => 0
  | some fr => frameCounts cats fr

/-- The data `drawCountGraph` assembles before painting: window times,
per-category count series, and the audio series (precomputed when
`audio_levels` is present and nonempty, else live lookup with the
future-clamp to `0`). -/
structure ChartData where
  times : List ℚ
  categoryCounts : List (List ℕ)
  audioLevels : List ℚ
deriving Repr, DecidableEq

def chartData (cats : List GraphCategory) (res : TrackResult) (syncTime : ℚ)
    (samples : List (ℚ × ℚ)) : ChartData :=
  let idxs := chartFrameIdxs res.fps syncTime
  let times := idxs.map (fun fi : ℤ => (fi : ℚ) / res.fps)
  { times := times
    categoryCounts := (List.range cats.length).map
      (fun c => idxs.map (fun fi => (frameCountsAt cats res fi).getD c 0))
    audioLevels :=
      match res.audio_levels with
      | some levels =>
        if 0 < levels.length then
          times.map (fun t => precompAudioLevel levels res.fps syncTime t)
        else times.map (fun t => if syncTime < t then 0 else getAudioLevelAt samples t)
      | none =>
        times.map (fun t => if syncTime < t then 0 else getAudioLevelAt samples t) }

/-- One tick's layer outputs: `none` marks a skipped layer. -/
structure OverlayOutput where
  heatmap : Option (List (List ℚ))
  trailLayer : Option (ℤ → List (ℚ × ℚ))
  boxLayer : Option (List (ℚ × ℚ × ℚ × ℚ))
  chart : ChartData

/-- The per-tick pass of `drawOverlay` after the readiness checks: resolve
the frame index from the sync time; when the frame is absent draw only the
chart; otherwise draw heatmap (when enabled and nonempty), trails, boxes
(scaled to display coordinates as `x·scaleX, y·scaleY, w·scaleX, h·scaleY`),
and the chart. -/
def drawOverlay (cats : List GraphCategory) (res : TrackResult)
    (tRaw delay : ℚ) (samples : List (ℚ × ℚ)) (showSaliency : Bool)
    (scaleX scaleY : ℚ) : OverlayOutput :=
  let syncTime := syncTimeOf tRaw delay
  let frameIndex := frameIndexOf syncTime res.fps
  match res.frames frameIndex with
  | none =>
    { heatmap := none
      trailLayer := none
      boxLayer := none
      chart := chartData cats res syncTime samples }
  | some frame =>
    { heatmap :=
        if showSaliency then
          match frame.saliency with
          | some sal => if 0 < sal.length then some sal else none
          | none => none
        else none
      trailLayer := some (fun tid => trailPoints res frameIndex scaleX scaleY tid)
      boxLayer := some (frame.boxes.map (fun b =>
        (b.1 * scaleX, b.2.1 * scaleY, (b.2.2.1 - b.1) * scaleX,
          (b.2.2.2 - b.2.1) * scaleY)))
      chart := chartData cats res syncTime samples }

/-- C9: on a tick whose resolved frame index is absent, the heatmap, trail
and box layers are all skipped while the chart layer still renders from the
window data, in which every absent frame counts `0` in every category; the
pass is total, so no error is raised. -/
theorem absent_frame_degrades (cats : List GraphCategory) (res : TrackResult)
    (tRaw delay : ℚ) (samples : List (ℚ × ℚ)) (showSaliency : Bool)
    (scaleX scaleY : ℚ)
    (habsent : res.frames (frameIndexOf (syncTimeOf tRaw delay) res.fps) = none) :
    (drawOverlay cats res tRaw delay samples showSaliency scaleX scaleY).heatmap =
        none ∧
      (drawOverlay cats res tRaw delay samples showSaliency scaleX scaleY).trailLayer =
        none ∧
      (drawOverlay cats res tRaw delay samples showSaliency scaleX scaleY).boxLayer =
        none ∧
      (drawOverlay cats res tRaw delay samples showSaliency scaleX scaleY).chart =
        chartData cats res (syncTimeOf tRaw delay) samples ∧
      (∀ fi : ℤ, res.frames fi = none →
        frameCountsAt cats res fi = cats.map fun _ => 0) := by
  refine ⟨?_, ?_, ?_, ?_, fun fi h => by rw [frameCountsAt, h]⟩ <;>
    rw [drawOverlay] <;> rw [habsent]

/-- Empty track result used by the absent-frame witness. -/
def emptyRes : TrackResult :=
  { fps := 30, frame_count := 0, frames := fun _ => none, audio_levels := none }

/-- Witness for `absent_frame_degrades` on a result with no frames at all. -/
theorem absent_frame_degrades_witness :
    (drawOverlay catsW emptyRes 1 0 [] true 1 1).heatmap = none ∧
      (drawOverlay catsW emptyRes 1 0 [] true 1 1).trailLayer = none ∧
      (drawOverlay catsW emptyRes 1 0 [] true 1 1).boxLayer = none ∧
      (drawOverlay catsW emptyRes 1 0 [] true 1 1).chart =
        chartData catsW emptyRes (syncTimeOf 1 0) [] ∧
      (∀ fi : ℤ, emptyRes.frames fi = none →
        frameCountsAt catsW emptyRes fi = catsW.map fun _ => 0) :=
  absent_frame_degrades catsW emptyRes 1 0 [] true 1 1 rfl

end JoloViz
